import Mathlib

/-!
Verification of the concurrency-limiting iterator layer
(`rayon_iter_concurrent_limit`: `iter_subdivide` and the
`iter_concurrent_limit!` dispatch arms) and of the `unsafe_cell_slice`
aliasing helper.

Sequences are modelled as `List`, the chunking of
`rayon::iter::IndexedParallelIterator::chunks` as `chunksOf`, and each
dispatch arm of the macro as a function from the concurrency limit, the
operation and the input list to the (deterministic) result the engine
collects.  The rayon engine itself is not part of the repository; its
terminal operations (`for_each`, `try_for_each`, `any`, `all`) and the
ordered collection of `flat_map_iter` are modelled by their documented
sequential semantics.
-/

namespace ZR

/-- Model of `rayon::iter::IndexedParallelIterator::chunks(size)`: splits the
sequence into contiguous chunks of exactly `size` items, the last chunk
possibly smaller.  Rayon asserts `size > 0`; `iter_subdivide` only ever calls
this with `size ≥ 1`, and for `size = 0` this model behaves like `size = 1`. -/
def chunksOf (size : Nat) (l : List α) : List (List α) :=
  match l with
  | [] => []
  | x :: xs => (x :: xs.take (size - 1)) :: chunksOf size (xs.drop (size - 1))
termination_by l.length
decreasing_by simp only [List.length_drop, List.length_cons]; omega

/-- The chunk size computed by `iter_subdivide` for a sequence of length
`len`: `1` when `num_chunks == 0`, otherwise
`std::cmp::max((len + num_chunks - 1) / num_chunks, 1)`.  This is the
unbounded-Nat idealisation of the source's usize arithmetic; it coincides with
the program exactly when `len + num_chunks` fits in usize (see
`chunk_size_checked` for the debug semantics, where the overflow panics, and
`chunk_size_wrapped` for the release semantics, where it wraps). -/
def chunk_size (len num_chunks : Nat) : Nat :=
  if num_chunks = 0 then 1
  else max ((len + num_chunks - 1) / num_chunks) 1

/-- Model of `iter_subdivide(num_chunks, iterator)` from
`rayon_iter_concurrent_limit/src/lib.rs`: if `num_chunks == 0` chunk size 1
(one chunk per item), otherwise chunks of size
`max((len + num_chunks - 1) / num_chunks, 1)`. -/
def iter_subdivide (num_chunks : Nat) (l : List α) : List (List α) :=
  if num_chunks = 0 then
    chunksOf 1 l
  else
    chunksOf (max ((l.length + num_chunks - 1) / num_chunks) 1) l

/-- Ceiling division the way the spec writes it: `ceil(n / k)`. -/
def ceil_div_spec (n k : Nat) : Nat :=
  n / k + (if n % k = 0 then 0 else 1)

/-- Model of the `map` arm of `iter_concurrent_limit!`: subdivide (no limit
fast path for this arm), sequentially map inside each chunk, and flatten the
per-chunk outputs in chunk order (`flat_map_iter` collected in order). -/
def limit_map (limit : Nat) (f : α → β) (l : List α) : List β :=
  (iter_subdivide limit l).flatMap (fun chunk => chunk.map f)

/-- Model of the `update` arm of `iter_concurrent_limit!`: each item is
mutated in place and re-emitted; the in-place mutation `op(&mut item)` is
modelled by the function `update_op` returning the mutated value. -/
def limit_update (limit : Nat) (update_op : α → α) (l : List α) : List α :=
  (iter_subdivide limit l).flatMap (fun chunk => chunk.map (fun item => update_op item))

/-- Model of the `filter` arm of `iter_concurrent_limit!`: sequential filter
inside each chunk, surviving items flattened in chunk order. -/
def limit_filter (limit : Nat) (filter_op : α → Bool) (l : List α) : List α :=
  (iter_subdivide limit l).flatMap (fun chunk => chunk.filter filter_op)

/-- Model of the `filter_map` arm of `iter_concurrent_limit!`: sequential
filter_map inside each chunk, surviving mapped items flattened in chunk
order. -/
def limit_filter_map (limit : Nat) (filter_op : α → Option β) (l : List α) : List β :=
  (iter_subdivide limit l).flatMap (fun chunk => chunk.filterMap filter_op)

/-- Model of the `for_each` arm of `iter_concurrent_limit!`, recorded as the
list of arguments the operation is invoked on (in the canonical order the
items are visited): engine-native parallel `for_each` when `limit == 0`, a
plain sequential pass when `limit == 1`, otherwise one sequential pass per
chunk. -/
def limit_for_each (limit : Nat) (l : List α) : List α :=
  if limit = 0 then l
  else if limit = 1 then l
  else (iter_subdivide limit l).flatMap (fun chunk => chunk)

/-- Sequential `try_for_each`: apply `op` to each item in order, stopping at
and returning the first failure, `Ok(())` when every item succeeds. -/
def try_for_each_seq (op : α → Except ε Unit) : List α → Except ε Unit
  | [] => Except.ok ()
  | x :: xs =>
    match op x with
    | Except.ok _ => try_for_each_seq op xs
    | Except.error e => Except.error e

/-- Model of the `try_for_each` arm of `iter_concurrent_limit!`: engine-native
parallel `try_for_each` when `limit == 0` (modelled by its sequential result),
a plain sequential pass when `limit == 1`, otherwise a `try_for_each` over
chunks with a sequential `try_for_each` inside each chunk. -/
def limit_try_for_each (limit : Nat) (op : α → Except ε Unit) (l : List α) :
    Except ε Unit :=
  if limit = 0 then try_for_each_seq op l
  else if limit = 1 then try_for_each_seq op l
  else try_for_each_seq (fun chunk => try_for_each_seq op chunk) (iter_subdivide limit l)

/-- Model of the `any` arm of `iter_concurrent_limit!`: engine-native parallel
`any` when `limit == 0` (its result is the logical or over all items), a plain
sequential pass when `limit == 1`, otherwise `any` over chunks of a sequential
`any` inside each chunk. -/
def limit_any (limit : Nat) (predicate : α → Bool) (l : List α) : Bool :=
  if limit = 0 then l.any predicate
  else if limit = 1 then l.any predicate
  else (iter_subdivide limit l).any (fun chunk => chunk.any predicate)

/-- Model of the `all` arm of `iter_concurrent_limit!`: engine-native parallel
`all` when `limit == 0` (its result is the logical and over all items), a
plain sequential pass when `limit == 1`, otherwise `all` over chunks of a
sequential `all` inside each chunk. -/
def limit_all (limit : Nat) (predicate : α → Bool) (l : List α) : Bool :=
  if limit = 0 then l.all predicate
  else if limit = 1 then l.all predicate
  else (iter_subdivide limit l).all (fun chunk => chunk.all predicate)

/-- Largest value of the Rust `usize` type on a 64-bit target. -/
def USIZE_MAX : Nat := 2 ^ 64 - 1

/-- Checked (debug-semantics) model of the chunk-size arithmetic in
`iter_subdivide` over `usize`: `none` models a panic of the arithmetic.  The
expression is `(iterator.len() + num_chunks - 1) / num_chunks`, guarded by the
`num_chunks == 0` branch, so the addition is evaluated first and overflows
when `len + num_chunks` exceeds `usize::MAX`; the subtraction underflows when
`len + num_chunks < 1`. -/
def chunk_size_checked (len num_chunks : Nat) : Option Nat :=
  if num_chunks = 0 then some 1
  else if USIZE_MAX < len + num_chunks then none
  else if len + num_chunks < 1 then none
  else some (max ((len + num_chunks - 1) / num_chunks) 1)

/-- Release-semantics (wrapping) model of the chunk-size arithmetic in
`iter_subdivide` over usize: the addition `len + num_chunks` and the
subtraction of 1 wrap modulo `2 ^ 64` instead of panicking, and the quotient
is then clamped to at least 1 by the `max`. -/
def chunk_size_wrapped (len num_chunks : Nat) : Nat :=
  if num_chunks = 0 then 1
  else max (((len + num_chunks) % 2 ^ 64 + (2 ^ 64 - 1)) % 2 ^ 64 / num_chunks) 1

/-- The operation of the spec's `try_for_each` scenario: fails exactly on the
item with value 4, succeeding on every other item. -/
def fails_on_four (i : Nat) : Except Nat Unit :=
  if i = 4 then Except.error 4 else Except.ok ()

/-- Model of `UnsafeCellSlice` from `unsafe_cell_slice/src/lib.rs`: a shared
handle over an underlying slice, modelled by its list of elements. -/
structure UnsafeCellSlice (τ : Type u) where
  /-- Elements of the underlying slice. -/
  data : List τ

/-- Model of `UnsafeCellSlice::new`: wraps the slice. -/
def UnsafeCellSlice.new (slice : List τ) : UnsafeCellSlice τ :=
  ⟨slice⟩

/-- Model of `UnsafeCellSlice::as_mut_slice`: reads `self.0[0].get()` — an
index into element 0 of the underlying slice, which panics (modelled as
`none`) when the slice is empty — and then rebuilds a mutable slice of
`self.0.len()` elements from that pointer. -/
def UnsafeCellSlice.as_mut_slice (s : UnsafeCellSlice τ) : Option (List τ) :=
  match s.data[0]? with
  | none => none
  | some _ => some s.data

/-! Basic unfolding lemmas for `chunksOf`. -/

theorem chunksOf_nil (size : Nat) : chunksOf size ([] : List α) = [] := by
  simp [chunksOf]

theorem chunksOf_cons (size : Nat) (x : α) (xs : List α) :
    chunksOf size (x :: xs) =
      (x :: xs.take (size - 1)) :: chunksOf size (xs.drop (size - 1)) := by
  rw [chunksOf]

theorem chunksOf_eq_nil_iff (size : Nat) (l : List α) :
    chunksOf size l = [] ↔ l = [] := by
  cases l with
  | nil => simp [chunksOf_nil]
  | cons x xs => simp [chunksOf_cons]

/-- Concatenating the chunks of `chunksOf` reconstructs the original list. -/
theorem chunksOf_flatten (size : Nat) (l : List α) :
    (chunksOf size l).flatten = l := by
  induction l using chunksOf.induct size with
  | case1 => simp [chunksOf_nil]
  | case2 x xs ih =>
    rw [chunksOf_cons, List.flatten_cons, ih]
    simp [List.take_append_drop]

/-- Number of chunks produced by `chunksOf`: the ceiling of `length / size`. -/
theorem chunksOf_length (size : Nat) (hs : 1 ≤ size) (l : List α) :
    (chunksOf size l).length = (l.length + size - 1) / size := by
  induction l using chunksOf.induct size with
  | case1 =>
    simp only [chunksOf_nil, List.length_nil]
    rw [Nat.div_eq_of_lt (by omega)]
  | case2 x xs ih =>
    rw [chunksOf_cons]
    simp only [List.length_cons, ih, List.length_drop]
    rcases Nat.lt_or_ge xs.length size with h | h
    · have h0 : xs.length - (size - 1) + size - 1 < size := by omega
      rw [Nat.div_eq_of_lt h0]
      have h1 : 1 * size ≤ xs.length + 1 + size - 1 := by omega
      have h2 : xs.length + 1 + size - 1 < (1 + 1) * size := by omega
      rw [Nat.div_eq_of_lt_le h1 h2]
    · have h0 : xs.length - (size - 1) + size - 1 = xs.length := by omega
      have h1 : xs.length + 1 + size - 1 = xs.length + size := by omega
      rw [h0, h1, Nat.add_div_right _ (by omega)]

/-- Every chunk except possibly the last has exactly `size` elements. -/
theorem chunksOf_dropLast_length (size : Nat) (hs : 1 ≤ size) (l : List α) :
    ∀ c ∈ (chunksOf size l).dropLast, c.length = size := by
  induction l using chunksOf.induct size with
  | case1 => simp [chunksOf_nil]
  | case2 x xs ih =>
    rw [chunksOf_cons]
    by_cases hrest : xs.drop (size - 1) = []
    · rw [hrest, chunksOf_nil]
      simp
    · have hne : chunksOf size (xs.drop (size - 1)) ≠ [] := by
        rw [Ne, chunksOf_eq_nil_iff]; exact hrest
      rw [List.dropLast_cons_of_ne_nil hne]
      intro c hc
      rcases List.mem_cons.mp hc with rfl | hc
      · have hxs : size - 1 ≤ xs.length := by
          by_contra hcon
          exact hrest (List.drop_eq_nil_iff.mpr (by omega))
        simp only [List.length_cons, List.length_take]
        omega
      · exact ih c hc

/-- The last chunk of `chunksOf` holds `length % size` elements when `size`
does not divide the length, and a full `size` elements when it does. -/
theorem chunksOf_getLast_length (size : Nat) (hs : 1 ≤ size) (l : List α)
    (hl : l ≠ []) :
    ∃ c, (chunksOf size l).getLast? = some c ∧
      c.length = if l.length % size = 0 then size else l.length % size := by
  induction l using chunksOf.induct size with
  | case1 => exact absurd rfl hl
  | case2 x xs ih =>
    rw [chunksOf_cons]
    by_cases hrest : xs.drop (size - 1) = []
    · rw [hrest, chunksOf_nil]
      refine ⟨x :: xs.take (size - 1), rfl, ?_⟩
      have hlen : xs.length ≤ size - 1 := List.drop_eq_nil_iff.mp hrest
      simp only [List.length_cons, List.length_take]
      rcases Nat.lt_or_ge (xs.length + 1) size with h | h
      · have hmod : (x :: xs).length % size = xs.length + 1 := by
          simp only [List.length_cons]
          exact Nat.mod_eq_of_lt h
        simp only [List.length_cons] at hmod
        rw [hmod, if_neg (by omega)]
        omega
      · have heq : xs.length + 1 = size := by omega
        have hmod : (xs.length + 1) % size = 0 := by rw [heq]; exact Nat.mod_self size
        rw [hmod, if_pos rfl]
        omega
    · have hne : chunksOf size (xs.drop (size - 1)) ≠ [] := by
        rw [Ne, chunksOf_eq_nil_iff]; exact hrest
      obtain ⟨c, hc, hclen⟩ := ih hrest
      obtain ⟨r, rs, hr⟩ :
          ∃ r rs, chunksOf size (xs.drop (size - 1)) = r :: rs :=
        List.exists_cons_of_ne_nil hne
      refine ⟨c, ?_, ?_⟩
      · rw [hr, List.getLast?_cons_cons, ← hr, hc]
      · have hxs : size ≤ xs.length := by
          by_contra hcon
          exact hrest (List.drop_eq_nil_iff.mpr (by omega))
        have hsub : xs.length - (size - 1) + size = xs.length + 1 := by omega
        have hmod : (xs.drop (size - 1)).length % size = (x :: xs).length % size := by
          simp only [List.length_drop, List.length_cons]
          calc (xs.length - (size - 1)) % size
              = (xs.length - (size - 1) + size) % size := (Nat.add_mod_right _ _).symm
            _ = (xs.length + 1) % size := by rw [hsub]
        rw [hclen, hmod]

/-! Lemmas about `iter_subdivide`. -/

theorem iter_subdivide_eq_chunksOf (num_chunks : Nat) (l : List α) :
    iter_subdivide num_chunks l = chunksOf (chunk_size l.length num_chunks) l := by
  unfold iter_subdivide chunk_size
  by_cases h : num_chunks = 0
  · rw [if_pos h, if_pos h]
  · rw [if_neg h, if_neg h]

theorem chunk_size_pos (len num_chunks : Nat) : 1 ≤ chunk_size len num_chunks := by
  unfold chunk_size
  by_cases h : num_chunks = 0
  · rw [if_pos h]
  · rw [if_neg h]; exact le_max_right _ _

/-- Concatenating the chunks of `iter_subdivide` reconstructs the original
sequence, for every `num_chunks` (including the `0` sentinel). -/
theorem iter_subdivide_flatten (num_chunks : Nat) (l : List α) :
    (iter_subdivide num_chunks l).flatten = l := by
  rw [iter_subdivide_eq_chunksOf]
  exact chunksOf_flatten _ l

/-- The spec's `max(1, ceil(length / num_chunks))` agrees with the source's
`max((length + num_chunks - 1) / num_chunks, 1)`: ceiling division written as
`n / k` rounded up equals the add-then-divide form. -/
theorem ceil_div_spec_eq (n k : Nat) (hk : 1 ≤ k) :
    ceil_div_spec n k = (n + k - 1) / k := by
  unfold ceil_div_spec
  obtain ⟨q, r, hr, hn⟩ : ∃ q r, r < k ∧ n = k * q + r :=
    ⟨n / k, n % k, Nat.mod_lt _ (by omega), (Nat.div_add_mod n k).symm⟩
  subst hn
  rw [Nat.mul_add_div (by omega), Nat.mul_add_mod]
  rw [Nat.div_eq_of_lt hr, Nat.mod_eq_of_lt hr]
  by_cases h : r = 0
  · subst h
    rw [if_pos rfl]
    have h0 : k * q + 0 + k - 1 = k * q + (k - 1) := by omega
    rw [h0, Nat.mul_add_div (by omega), Nat.div_eq_of_lt (by omega)]
  · rw [if_neg h]
    have h0 : k * q + r + k - 1 = k * (q + 1) + (r - 1) := by
      rw [Nat.mul_add, Nat.mul_one]; omega
    rw [h0, Nat.mul_add_div (by omega), Nat.div_eq_of_lt (by omega)]

/-- Within the usize range (`num_chunks = 0`, or `len + num_chunks` fitting in
usize) the debug-checked chunk-size arithmetic succeeds and returns the
unbounded chunk size. -/
theorem chunk_size_checked_eq_some (len num_chunks : Nat)
    (h : num_chunks = 0 ∨ len + num_chunks ≤ USIZE_MAX) :
    chunk_size_checked len num_chunks = some (chunk_size len num_chunks) := by
  unfold chunk_size_checked chunk_size
  rcases h with rfl | h
  · rw [if_pos rfl, if_pos rfl]
  · by_cases h0 : num_chunks = 0
    · rw [if_pos h0, if_pos h0]
    · rw [if_neg h0, if_neg h0, if_neg (by omega), if_neg (by omega)]

/-- Within the usize range the release-wrapped chunk-size arithmetic also
agrees with the unbounded chunk size: neither modulus fires. -/
theorem chunk_size_wrapped_eq (len num_chunks : Nat) (h1 : 1 ≤ num_chunks)
    (h : len + num_chunks ≤ USIZE_MAX) :
    chunk_size_wrapped len num_chunks = chunk_size len num_chunks := by
  have hpow : (2 : Nat) ^ 64 = 18446744073709551616 := by norm_num
  have hmax : USIZE_MAX = 18446744073709551615 := by
    unfold USIZE_MAX
    rw [hpow]
  rw [hmax] at h
  unfold chunk_size_wrapped chunk_size
  rw [if_neg (by omega), if_neg (by omega), hpow]
  have ha : (len + num_chunks) % 18446744073709551616 = len + num_chunks :=
    Nat.mod_eq_of_lt (by omega)
  rw [ha]
  have hb : len + num_chunks + (18446744073709551616 - 1) =
      (len + num_chunks - 1) + 18446744073709551616 := by omega
  rw [hb, Nat.add_mod_right, Nat.mod_eq_of_lt (by omega)]

/-- The sequence length never exceeds `num_chunks * chunk_size` when
`num_chunks ≥ 1`: the chunk size is at least the ceiling of
`length / num_chunks`. -/
theorem length_le_mul_chunk_size (num_chunks : Nat) (hK : 1 ≤ num_chunks)
    (len : Nat) : len ≤ num_chunks * chunk_size len num_chunks := by
  unfold chunk_size
  rw [if_neg (by omega)]
  have h1 : (len + num_chunks - 1) / num_chunks ≤
      max ((len + num_chunks - 1) / num_chunks) 1 := le_max_left _ _
  have h2 : len ≤ num_chunks * ((len + num_chunks - 1) / num_chunks) := by
    have hdm := Nat.div_add_mod (len + num_chunks - 1) num_chunks
    have hmod : (len + num_chunks - 1) % num_chunks < num_chunks :=
      Nat.mod_lt _ (by omega)
    set m := num_chunks * ((len + num_chunks - 1) / num_chunks) with hm
    omega
  calc len ≤ num_chunks * ((len + num_chunks - 1) / num_chunks) := h2
    _ ≤ num_chunks * max ((len + num_chunks - 1) / num_chunks) 1 :=
        Nat.mul_le_mul_left _ h1

/-- Chunk count of `iter_subdivide`: the ceiling of `length / chunk_size`. -/
theorem iter_subdivide_length (num_chunks : Nat) (l : List α) :
    (iter_subdivide num_chunks l).length =
      (l.length + chunk_size l.length num_chunks - 1) / chunk_size l.length num_chunks := by
  rw [iter_subdivide_eq_chunksOf]
  exact chunksOf_length _ (chunk_size_pos _ _) l

/-- The number of chunks produced by `iter_subdivide` never exceeds
`num_chunks` when `num_chunks ≥ 1`. -/
theorem iter_subdivide_length_le (num_chunks : Nat) (hK : 1 ≤ num_chunks)
    (l : List α) : (iter_subdivide num_chunks l).length ≤ num_chunks := by
  rw [iter_subdivide_length]
  set cs := chunk_size l.length num_chunks with hcs
  have hcs1 : 1 ≤ cs := chunk_size_pos _ _
  have hle : l.length ≤ num_chunks * cs := length_le_mul_chunk_size _ hK _
  rw [← Nat.lt_succ_iff]
  rw [Nat.div_lt_iff_lt_mul (by omega)]
  have hmul : (num_chunks + 1) * cs = num_chunks * cs + cs := by
    rw [Nat.add_mul, Nat.one_mul]
  rw [Nat.succ_eq_add_one, hmul]
  set m := num_chunks * cs with hm
  omega

/-- With `num_chunks = 1` a non-empty sequence becomes a single chunk holding
the whole sequence. -/
theorem iter_subdivide_one (l : List α) (hl : l ≠ []) :
    iter_subdivide 1 l = [l] := by
  unfold iter_subdivide
  rw [if_neg one_ne_zero]
  obtain ⟨x, xs, rfl⟩ := List.exists_cons_of_ne_nil hl
  have hsize : max (((x :: xs).length + 1 - 1) / 1) 1 = xs.length + 1 := by
    simp [List.length_cons]
  rw [hsize, chunksOf_cons]
  have h1 : xs.length + 1 - 1 = xs.length := by omega
  rw [h1, List.take_length, List.drop_length, chunksOf_nil]

/-- With `num_chunks = 0` every item becomes its own singleton chunk. -/
theorem iter_subdivide_zero (l : List α) :
    iter_subdivide 0 l = l.map (fun x => [x]) := by
  unfold iter_subdivide
  rw [if_pos rfl]
  induction l with
  | nil => rw [chunksOf_nil, List.map_nil]
  | cons x xs ih =>
    rw [chunksOf_cons, List.map_cons]
    have h0 : (1 : Nat) - 1 = 0 := rfl
    rw [h0, List.take_zero, List.drop_zero, ih]

/-! Homomorphism lemmas: each per-chunk sequential operation, combined over
the chunk list, equals the operation over the concatenation of the chunks. -/

theorem flatMap_map_eq_flatten_map (L : List (List α)) (f : α → β) :
    L.flatMap (fun c => c.map f) = L.flatten.map f := by
  induction L with
  | nil => simp
  | cons c L ih => simp [ih]

theorem flatMap_filter_eq_flatten_filter (L : List (List α)) (p : α → Bool) :
    L.flatMap (fun c => c.filter p) = L.flatten.filter p := by
  induction L with
  | nil => simp
  | cons c L ih => simp [ih]

theorem flatMap_filterMap_eq_flatten_filterMap (L : List (List α))
    (f : α → Option β) : L.flatMap (fun c => c.filterMap f) = L.flatten.filterMap f := by
  induction L with
  | nil => simp
  | cons c L ih => simp [ih]

theorem flatMap_id_eq_flatten (L : List (List α)) :
    L.flatMap (fun c => c) = L.flatten := by
  induction L with
  | nil => simp
  | cons c L ih => simp [ih]

theorem any_chunks_eq_any_flatten (L : List (List α)) (p : α → Bool) :
    L.any (fun c => c.any p) = L.flatten.any p := by
  induction L with
  | nil => simp
  | cons c L ih => simp only [List.any_cons, List.flatten_cons, List.any_append, ih]

theorem all_chunks_eq_all_flatten (L : List (List α)) (p : α → Bool) :
    L.all (fun c => c.all p) = L.flatten.all p := by
  induction L with
  | nil => simp
  | cons c L ih => simp only [List.all_cons, List.flatten_cons, List.all_append, ih]

theorem try_for_each_seq_append (op : α → Except ε Unit) (l₁ l₂ : List α) :
    try_for_each_seq op (l₁ ++ l₂) =
      match try_for_each_seq op l₁ with
      | Except.ok _ => try_for_each_seq op l₂
      | Except.error e => Except.error e := by
  induction l₁ with
  | nil => simp [try_for_each_seq]
  | cons x xs ih =>
    simp only [List.cons_append, try_for_each_seq]
    cases op x with
    | ok u => simpa using ih
    | error e => rfl

theorem try_for_each_seq_chunks (op : α → Except ε Unit) (L : List (List α)) :
    try_for_each_seq (fun c => try_for_each_seq op c) L =
      try_for_each_seq op L.flatten := by
  induction L with
  | nil => simp [try_for_each_seq]
  | cons c L ih =>
    simp only [List.flatten_cons, try_for_each_seq, try_for_each_seq_append]
    cases try_for_each_seq op c with
    | ok u => simpa using ih
    | error e => rfl

/-! Dispatcher-level refinement lemmas: every concurrency-limited operation
produces the plain sequential result. -/

theorem limit_map_eq_map (limit : Nat) (f : α → β) (l : List α) :
    limit_map limit f l = l.map f := by
  unfold limit_map
  rw [flatMap_map_eq_flatten_map, iter_subdivide_flatten]

theorem limit_update_eq_map (limit : Nat) (update_op : α → α) (l : List α) :
    limit_update limit update_op l = l.map update_op := by
  unfold limit_update
  rw [flatMap_map_eq_flatten_map, iter_subdivide_flatten]

theorem limit_filter_eq_filter (limit : Nat) (p : α → Bool) (l : List α) :
    limit_filter limit p l = l.filter p := by
  unfold limit_filter
  rw [flatMap_filter_eq_flatten_filter, iter_subdivide_flatten]

theorem limit_filter_map_eq_filterMap (limit : Nat) (f : α → Option β)
    (l : List α) : limit_filter_map limit f l = l.filterMap f := by
  unfold limit_filter_map
  rw [flatMap_filterMap_eq_flatten_filterMap, iter_subdivide_flatten]

theorem limit_for_each_eq (limit : Nat) (l : List α) :
    limit_for_each limit l = l := by
  unfold limit_for_each
  split_ifs with h0 h1
  · rfl
  · rfl
  · rw [flatMap_id_eq_flatten, iter_subdivide_flatten]

theorem limit_any_eq_any (limit : Nat) (p : α → Bool) (l : List α) :
    limit_any limit p l = l.any p := by
  unfold limit_any
  split_ifs with h0 h1
  · rfl
  · rfl
  · rw [any_chunks_eq_any_flatten, iter_subdivide_flatten]

theorem limit_all_eq_all (limit : Nat) (p : α → Bool) (l : List α) :
    limit_all limit p l = l.all p := by
  unfold limit_all
  split_ifs with h0 h1
  · rfl
  · rfl
  · rw [all_chunks_eq_all_flatten, iter_subdivide_flatten]

theorem limit_try_for_each_eq_seq (limit : Nat) (op : α → Except ε Unit)
    (l : List α) : limit_try_for_each limit op l = try_for_each_seq op l := by
  unfold limit_try_for_each
  split_ifs with h0 h1
  · rfl
  · rfl
  · rw [try_for_each_seq_chunks, iter_subdivide_flatten]

/-! Characterisations of sequential `try_for_each`. -/

theorem try_for_each_seq_ok_iff (op : α → Except ε Unit) (l : List α) :
    try_for_each_seq op l = Except.ok () ↔ ∀ x ∈ l, op x = Except.ok () := by
  induction l with
  | nil => simp [try_for_each_seq]
  | cons x xs ih =>
    simp only [try_for_each_seq]
    cases hx : op x with
    | ok u =>
      cases u
      simp only [List.mem_cons]
      constructor
      · intro h y hy
        rcases hy with rfl | hy
        · exact hx
        · exact (ih.mp h) y hy
      · intro h
        exact ih.mpr (fun y hy => h y (Or.inr hy))
    | error e =>
      constructor
      · intro h
        exact absurd h (by simp)
      · intro h
        have := h x (List.mem_cons_self x xs)
        rw [hx] at this
        exact absurd this (by simp)

theorem try_for_each_seq_error_mem (op : α → Except ε Unit) (l : List α)
    (e : ε) (h : try_for_each_seq op l = Except.error e) :
    ∃ x ∈ l, op x = Except.error e := by
  induction l with
  | nil => exact absurd h (by simp [try_for_each_seq])
  | cons x xs ih =>
    rw [try_for_each_seq] at h
    cases hx : op x with
    | ok u =>
      rw [hx] at h
      obtain ⟨y, hy, hye⟩ := ih h
      exact ⟨y, List.mem_cons_of_mem x hy, hye⟩
    | error e' =>
      rw [hx] at h
      have he : e' = e := by
        injection h
      exact ⟨x, List.mem_cons_self x xs, by rw [hx, he]⟩

end ZR

open ZR

/-- C1: for every sequence, every operation and every concurrency limit K
(including 0 and 1), the concurrency-limited map, update, filter and
filter_map produce exactly the same output, in exactly the same order, as a
plain sequential application of the corresponding operation to the original
sequence. -/
theorem claim_C1_limited_ops_equal_sequential {α β : Type u} (K : Nat)
    (l : List α) (f : α → β) (u : α → α) (p : α → Bool) (g : α → Option β) :
    limit_map K f l = l.map f ∧
    limit_update K u l = l.map u ∧
    limit_filter K p l = l.filter p ∧
    limit_filter_map K g l = l.filterMap g :=
  ⟨limit_map_eq_map K f l, limit_update_eq_map K u l,
   limit_filter_eq_filter K p l, limit_filter_map_eq_filterMap K g l⟩

/-- C2: for every sequence, predicate and concurrency limit K (covering the
K=0 engine-native path, the K=1 sequential path and the K≥2 chunked path), the
concurrency-limited `any` is true iff some item satisfies the predicate and
the concurrency-limited `all` is false iff some item fails it — each equals
the plain sequential any/all over the whole sequence. -/
theorem claim_C2_any_all_equal_sequential {α : Type u} (K : Nat) (l : List α)
    (p : α → Bool) :
    limit_any K p l = l.any p ∧
    limit_all K p l = l.all p ∧
    (limit_any K p l = true ↔ ∃ x ∈ l, p x = true) ∧
    (limit_all K p l = false ↔ ∃ x ∈ l, p x = false) := by
  refine ⟨limit_any_eq_any K p l, limit_all_eq_all K p l, ?_, ?_⟩
  · rw [limit_any_eq_any]
    exact List.any_eq_true
  · rw [limit_all_eq_all]
    rw [List.all_eq_false]
    constructor
    · rintro ⟨x, hx, hpx⟩
      exact ⟨x, hx, by revert hpx; cases p x <;> simp⟩
    · rintro ⟨x, hx, hpx⟩
      exact ⟨x, hx, by rw [hpx]; simp⟩

/-- C3: for every sequence, fallible operation and concurrency limit K, the
concurrency-limited try_for_each returns Ok(()) iff the operation succeeds on
every item, otherwise it returns a failure produced by the operation on some
item; in particular for K=2 and N=10 with an operation failing exactly on the
item with value 4, the call returns that failure. -/
theorem claim_C3_try_for_each_propagates_failure {α ε : Type u} (K : Nat)
    (op : α → Except ε Unit) (l : List α) :
    (limit_try_for_each K op l = Except.ok () ↔ ∀ x ∈ l, op x = Except.ok ()) ∧
    (∀ e, limit_try_for_each K op l = Except.error e →
      ∃ x ∈ l, op x = Except.error e) ∧
    limit_try_for_each 2 fails_on_four (List.range 10) = Except.error 4 := by
  refine ⟨?_, ?_, ?_⟩
  · rw [limit_try_for_each_eq_seq]
    exact try_for_each_seq_ok_iff op l
  · intro e he
    rw [limit_try_for_each_eq_seq] at he
    exact try_for_each_seq_error_mem op l e he
  · rw [limit_try_for_each_eq_seq]
    rfl

/-- C3 witness: the concrete scenario of the claim, K=2, N=10, failure exactly
on item 4, returns that failure. -/
theorem claim_C3_witness :
    limit_try_for_each 2 fails_on_four (List.range 10) = Except.error 4 :=
  (claim_C3_try_for_each_propagates_failure 2 fails_on_four (List.range 10)).2.2

/-- C4: for every sequence of length N and every num_chunks K ≥ 1, the chunks
of subdivide satisfy: the sum of the chunk lengths equals N, and concatenating
the chunks in order yields exactly the original sequence. -/
theorem claim_C4_subdivide_partitions {α : Type u} (K : Nat) (l : List α)
    (_hK : 1 ≤ K) :
    ((iter_subdivide K l).map List.length).sum = l.length ∧
    (iter_subdivide K l).flatten = l := by
  have hf := iter_subdivide_flatten K l
  refine ⟨?_, hf⟩
  rw [← List.length_flatten, hf]

/-- C4 witness: the partition property at K = 2 on the concrete sequence
[0, 1, 2, 3, 4]. -/
theorem claim_C4_witness :
    1 ≤ 2 ∧
    (((iter_subdivide 2 ([0, 1, 2, 3, 4] : List Nat)).map List.length).sum =
        ([0, 1, 2, 3, 4] : List Nat).length ∧
      (iter_subdivide 2 ([0, 1, 2, 3, 4] : List Nat)).flatten = [0, 1, 2, 3, 4]) :=
  ⟨by decide, claim_C4_subdivide_partitions 2 [0, 1, 2, 3, 4] (by decide)⟩

/-- C5 counterexample: at length 2^64 - 1 and num_chunks 2 the source's usize
chunk-size arithmetic does not produce the claimed max(1, ceil(N/K)) = 2^63:
the debug-checked computation panics (the addition overflows usize), and the
release-wrapped computation yields chunk size 1, under which the chunk count
ceil(N / 1) = 2^64 - 1 exceeds num_chunks = 2. -/
theorem claim_C5_counterexample :
    chunk_size_checked (2 ^ 64 - 1) 2 = none ∧
    chunk_size_wrapped (2 ^ 64 - 1) 2 = 1 ∧
    max 1 (ceil_div_spec (2 ^ 64 - 1) 2) = 2 ^ 63 ∧
    chunk_size_wrapped (2 ^ 64 - 1) 2 ≠ max 1 (ceil_div_spec (2 ^ 64 - 1) 2) ∧
    ceil_div_spec (2 ^ 64 - 1) (chunk_size_wrapped (2 ^ 64 - 1) 2) = 2 ^ 64 - 1 ∧
    ¬ (2 ^ 64 - 1 ≤ 2) := by
  refine ⟨by decide, by decide, by decide, by decide, by decide, by decide⟩

/-- C5 (amended): at K = 0 the chunk size is 1 (one chunk per item); at K ≥ 1,
provided the sum N + K fits in usize (so the source's add-before-subtract
arithmetic neither panics in debug nor wraps in release — both usize
semantics then agree with the unbounded chunk size), the chunk size is
max(1, ceil(N/K)), all chunks have exactly that size except possibly the
last, whose size is N mod chunk_size when nonzero (full chunk_size
otherwise), and the chunk count ceil(N / chunk_size) is at most K. -/
theorem claim_C5_chunk_size_arithmetic {α : Type u} (K N : Nat) (l : List α)
    (hN : l.length = N) :
    chunk_size N 0 = 1 ∧
    iter_subdivide 0 l = l.map (fun x => [x]) ∧
    (1 ≤ K → N + K ≤ USIZE_MAX →
      chunk_size_checked N K = some (chunk_size N K) ∧
      chunk_size_wrapped N K = chunk_size N K ∧
      chunk_size N K = max 1 (ceil_div_spec N K) ∧
      (∀ c ∈ (iter_subdivide K l).dropLast, c.length = chunk_size N K) ∧
      (l ≠ [] → ∃ c, (iter_subdivide K l).getLast? = some c ∧
        c.length = if N % chunk_size N K = 0 then chunk_size N K
          else N % chunk_size N K) ∧
      (iter_subdivide K l).length = ceil_div_spec N (chunk_size N K) ∧
      (iter_subdivide K l).length ≤ K) := by
  subst hN
  refine ⟨by unfold chunk_size; rw [if_pos rfl], iter_subdivide_zero l,
    fun hK hRange => ⟨?_, ?_, ?_, ?_, ?_, ?_, ?_⟩⟩
  · exact chunk_size_checked_eq_some _ _ (Or.inr hRange)
  · exact chunk_size_wrapped_eq _ _ hK hRange
  · unfold chunk_size
    rw [if_neg (by omega), ceil_div_spec_eq _ _ hK, Nat.max_comm]
  · rw [iter_subdivide_eq_chunksOf]
    exact chunksOf_dropLast_length _ (chunk_size_pos _ _) l
  · intro hl
    rw [iter_subdivide_eq_chunksOf]
    exact chunksOf_getLast_length _ (chunk_size_pos _ _) l hl
  · rw [iter_subdivide_length, ceil_div_spec_eq _ _ (chunk_size_pos _ _)]
  · exact iter_subdivide_length_le K hK l

/-- C5 witness: the chunk-count bound at K = 3 on the concrete sequence
[0, 1, 2, 3, 4, 5, 6] of length 7, whose sum 7 + 3 fits in usize. -/
theorem claim_C5_witness :
    ([0, 1, 2, 3, 4, 5, 6] : List Nat).length = 7 ∧ 1 ≤ 3 ∧
    7 + 3 ≤ USIZE_MAX ∧
    (iter_subdivide 3 ([0, 1, 2, 3, 4, 5, 6] : List Nat)).length ≤ 3 :=
  ⟨rfl, by decide, by decide,
    ((claim_C5_chunk_size_arithmetic 3 7 [0, 1, 2, 3, 4, 5, 6] rfl).2.2
      (by decide) (by decide)).2.2.2.2.2.2⟩

/-- C6 counterexample: the claim that the chunk-size arithmetic
`(length + num_chunks - 1) / num_chunks` cannot fail for any usize length and
any usize num_chunks is false — at length = usize::MAX and num_chunks = 1 the
addition `length + num_chunks` already overflows usize. -/
theorem claim_C6_counterexample :
    USIZE_MAX ≤ USIZE_MAX ∧ 1 ≤ USIZE_MAX ∧
    chunk_size_checked USIZE_MAX 1 = none := by
  refine ⟨le_refl _, by decide, ?_⟩
  unfold chunk_size_checked
  rw [if_neg one_ne_zero, if_pos (by unfold USIZE_MAX; omega)]

/-- C6 amended: the chunk-size arithmetic never underflows (the
`num_chunks == 0` guard makes the subtraction and the division safe), and it
neither panics nor overflows whenever `num_chunks == 0` or
`length + num_chunks` fits in usize, in which case it returns exactly the
unchecked chunk size. -/
theorem claim_C6_amended_no_failure (len num_chunks : Nat)
    (h : num_chunks = 0 ∨ len + num_chunks ≤ USIZE_MAX) :
    chunk_size_checked len num_chunks = some (chunk_size len num_chunks) :=
  chunk_size_checked_eq_some len num_chunks h

/-- C6 witness: the checked arithmetic succeeds at length 100 and
num_chunks 2 and returns the unchecked chunk size. -/
theorem claim_C6_witness :
    (100 + 2 ≤ USIZE_MAX) ∧
    chunk_size_checked 100 2 = some (chunk_size 100 2) :=
  ⟨by decide, claim_C6_amended_no_failure 100 2 (Or.inr (by decide))⟩

/-- C8: for the empty sequence and every concurrency limit K including 0 and
1: subdivide produces zero chunks, for_each performs no operation invocation,
map and filter produce empty output, any returns false and all returns
true. -/
theorem claim_C8_empty_sequence {α β : Type u} (K : Nat) (f : α → β)
    (p : α → Bool) :
    iter_subdivide K ([] : List α) = [] ∧
    limit_for_each K ([] : List α) = [] ∧
    limit_map K f ([] : List α) = [] ∧
    limit_filter K p ([] : List α) = [] ∧
    limit_any K p ([] : List α) = false ∧
    limit_all K p ([] : List α) = true := by
  refine ⟨?_, ?_, ?_, ?_, ?_, ?_⟩
  · rw [iter_subdivide_eq_chunksOf]
    exact chunksOf_nil _
  · rw [limit_for_each_eq]
  · rw [limit_map_eq_map]
    rfl
  · rw [limit_filter_eq_filter]
    rfl
  · rw [limit_any_eq_any]
    rfl
  · rw [limit_all_eq_all]
    rfl

/-- C9: for num_chunks = 1 and every non-empty sequence, subdivide returns
exactly one chunk holding the whole sequence; consequently map, update,
filter and filter_map with limit 1 — which take no sequential fast path and
always go through the chunking layer — still produce the sequential result
over all items as a single work unit. -/
theorem claim_C9_limit_one_single_chunk {α β : Type u} (l : List α)
    (f : α → β) (u : α → α) (p : α → Bool) (g : α → Option β) (hl : l ≠ []) :
    iter_subdivide 1 l = [l] ∧
    limit_map 1 f l = l.map f ∧
    limit_update 1 u l = l.map u ∧
    limit_filter 1 p l = l.filter p ∧
    limit_filter_map 1 g l = l.filterMap g :=
  ⟨iter_subdivide_one l hl, limit_map_eq_map 1 f l, limit_update_eq_map 1 u l,
   limit_filter_eq_filter 1 p l, limit_filter_map_eq_filterMap 1 g l⟩

/-- C9 witness: with num_chunks = 1 the concrete sequence [10, 20, 30] becomes
the single chunk [[10, 20, 30]]. -/
theorem claim_C9_witness :
    ([10, 20, 30] : List Nat) ≠ [] ∧
    iter_subdivide 1 ([10, 20, 30] : List Nat) = [[10, 20, 30]] :=
  ⟨by decide,
    (claim_C9_limit_one_single_chunk [10, 20, 30] id id (fun _ => true) some
      (by decide)).1⟩

/-- C10: for every element type, `as_mut_slice` on an `UnsafeCellSlice` built
from a slice of length 0 panics (it indexes element 0 of the empty underlying
slice, modelled as `none`), whereas for every slice of length ≥ 1 it returns a
mutable slice of the same length as the original. -/
theorem claim_C10_as_mut_slice_empty_panics {τ : Type u} (s : List τ) :
    (UnsafeCellSlice.new ([] : List τ)).as_mut_slice = none ∧
    (s ≠ [] → ∃ r, (UnsafeCellSlice.new s).as_mut_slice = some r ∧
      r.length = s.length) := by
  constructor
  · rfl
  · intro hs
    obtain ⟨x, xs, rfl⟩ := List.exists_cons_of_ne_nil hs
    refine ⟨x :: xs, ?_, rfl⟩
    simp [UnsafeCellSlice.new, UnsafeCellSlice.as_mut_slice]

/-- C10 witness: on the concrete two-element slice [3, 7] the call succeeds
and returns a slice of length 2. -/
theorem claim_C10_witness :
    ([3, 7] : List Nat) ≠ [] ∧
    ∃ r, (UnsafeCellSlice.new ([3, 7] : List Nat)).as_mut_slice = some r ∧
      r.length = ([3, 7] : List Nat).length :=
  ⟨by decide, (claim_C10_as_mut_slice_empty_panics [3, 7]).2 (by decide)⟩
